import Mathlib

/-!
Verification of the derivative core of `diffcp` (`cpp/src/deriv.cpp`).

The core builds the derivative operator `M = (Q - I) * Dpi(u, v, w, cones) + I`
of a cone solver's fixed-point residual, in an operator (matrix-free) form and
a dense form, and solves the dense system with a QR-style factorization.

Embedding conventions:
* `double` values are modelled as exact rationals `ℚ` (the claims are about
  exact algebraic behaviour, not rounding).
* Eigen dense matrices are `List (List ℚ)` (row-major); Eigen's runtime
  dimension assertions on `+`, `-`, `*` and on `solve` are modelled by the
  checked operations returning `Option` (`none` = assertion failure).
* The collaborators that live outside the verified sources
  (`LinearOperator` algebra from `linop.cpp`, the cone-projection derivative
  from `cones.cpp`, Eigen's `ColPivHouseholderQR::solve`) are modelled from
  the specification; the cone collaborator is a parameter of the definitions.
-/

namespace Diffcp

/-- Vectors (`Eigen::VectorXd`): finite sequences of reals, modelled as `ℚ`. -/
abbrev Vec := List ℚ

/-- Dense matrices (`Eigen::MatrixXd`), row-major list of rows.  Sparse
matrices (`Eigen::SparseMatrix`) carry the same mathematical content and are
modelled by the same type. -/
abbrev Mat := List (List ℚ)

/-- Modelled from the spec: a `Cone` is an opaque descriptor (type tag plus
shape parameters) for one block of the product cone; this core never inspects
it, only forwards it to the cone collaborator. -/
structure Cone where
  tag : ℕ
  shape : List ℕ

/-- Dot product of two vectors (truncating at the shorter one, as `zipWith`
does; for equal lengths this is the usual inner product). -/
def dot (a b : Vec) : ℚ := (List.zipWith (· * ·) a b).sum

/-- Matrix–vector product: row-wise dot products. -/
def mulVecL (A : Mat) (x : Vec) : Vec := A.map (fun r => dot r x)

/-- The `j`-th column of a matrix (missing entries read as `0`). -/
def colL (A : Mat) (j : ℕ) : Vec := A.map (fun r => r.getD j 0)

/-- The shape of a matrix: the list of its row lengths. -/
def shapeOf (A : Mat) : List ℕ := A.map List.length

/-- Number of columns of a (rectangular) matrix. -/
def colsL (A : Mat) : ℕ := (A.headD []).length

/-- Entry `(i, j)` of a matrix (out-of-range reads as `0`). -/
def entryL (A : Mat) (i j : ℕ) : ℚ := (A.getD i []).getD j 0

/-- Build an `r × c` matrix from an entry function. -/
def ofFnMat (r c : ℕ) (f : ℕ → ℕ → ℚ) : Mat :=
  (List.range r).map (fun i => (List.range c).map (f i))

/-- The `r × c` sub-block of `A` whose top-left corner is `(r0, c0)`
(Eigen's `A.block(r0, c0, r, c)`). -/
def blockL (A : Mat) (r0 c0 r c : ℕ) : Mat :=
  ofFnMat r c (fun i j => entryL A (r0 + i) (c0 + j))

/-- The `N × N` identity matrix (`eye.setIdentity()` in the source). -/
def eyeMatL (N : ℕ) : Mat := ofFnMat N N (fun i j => if i = j then 1 else 0)

/-- Modelled from the spec: Eigen matrix addition; Eigen asserts that the two
operands have identical dimensions, modelled as `none` on shape mismatch. -/
def matAdd (A B : Mat) : Option Mat :=
  if shapeOf A = shapeOf B then
    some (List.zipWith (List.zipWith (· + ·)) A B)
  else none

/-- Modelled from the spec: Eigen matrix subtraction; Eigen asserts that the
two operands have identical dimensions, modelled as `none` on mismatch. -/
def matSub (A B : Mat) : Option Mat :=
  if shapeOf A = shapeOf B then
    some (List.zipWith (List.zipWith (· - ·)) A B)
  else none

/-- Modelled from the spec: Eigen matrix product; Eigen requires rectangular
operands with `A.cols = B.rows`, modelled as `none` otherwise. -/
def matMul (A B : Mat) : Option Mat :=
  if shapeOf A = List.replicate A.length B.length ∧
      shapeOf B = List.replicate B.length (colsL B) then
    some (A.map (fun r => (List.range (colsL B)).map (fun j => dot r (colL B j))))
  else none

/-- Modelled from the spec: the abstract `LinearOperator` of the linear-operator
collaborator — a matrix-free linear map with advertised output size `m`,
input size `n`, and an apply-to-vector function. -/
structure LinearOperator where
  m : ℕ
  n : ℕ
  matvec : Vec → Vec

/-- Modelled from the spec: `identity(n)` of the linear-operator collaborator,
the identity map on `ℝⁿ`. -/
def identity (k : ℕ) : LinearOperator := ⟨k, k, fun x => x⟩

/-- Modelled from the spec: `scalar(c)` of the linear-operator collaborator,
the `1 × 1` operator multiplying by `c`. -/
def scalar (c : ℚ) : LinearOperator := ⟨1, 1, fun x => [c * x.headD 0]⟩

/-- Modelled from the spec: wrapping a (sparse) matrix as a `LinearOperator`
(`aslinearoperator(Q)`). -/
def aslinearoperator (A : Mat) : LinearOperator :=
  ⟨A.length, colsL A, fun x => mulVecL A x⟩

/-- Modelled from the spec: sum of two linear operators (lazy, pointwise). -/
def loAdd (A B : LinearOperator) : LinearOperator :=
  ⟨A.m, A.n, fun x => List.zipWith (· + ·) (A.matvec x) (B.matvec x)⟩

/-- Modelled from the spec: difference of two linear operators. -/
def loSub (A B : LinearOperator) : LinearOperator :=
  ⟨A.m, A.n, fun x => List.zipWith (· - ·) (A.matvec x) (B.matvec x)⟩

/-- Modelled from the spec: composition `A ∘ B` of linear operators
(operator product, evaluated lazily). -/
def loMul (A B : LinearOperator) : LinearOperator :=
  ⟨A.m, B.n, fun x => A.matvec (B.matvec x)⟩

/-- Apply a block-diagonal stack of operators to a vector: each operator
consumes its advertised number of input entries and the results are
concatenated. -/
def blockApply : List LinearOperator → Vec → Vec
  | [], _ => []
  | o :: rest, x => o.matvec (x.take o.n) ++ blockApply rest (x.drop o.n)

/-- Modelled from the spec: `block_diag` of the linear-operator collaborator —
block-diagonal stacking of a sequence of operators into one operator acting
on the concatenation of their domains. -/
def block_diag (ops : List LinearOperator) : LinearOperator :=
  ⟨(ops.map LinearOperator.m).sum, (ops.map LinearOperator.n).sum,
    fun x => blockApply ops x⟩

/-- The scalar step function of `deriv.cpp`:
`if (x >= t) return 1.0; else return 0.0;` — note the non-strict `>=`. -/
def gt (x t : ℚ) : ℚ := if x ≥ t then 1 else 0

/-- `dpi(u, v, w, cones)` from `deriv.cpp`: the block-diagonal operator
`[identity(|u|), dprojection(v, cones, true), scalar(gt(w, 0.0))]`.
The external cone collaborator `dprojection` is passed as a parameter. -/
def dpi (dprojection : Vec → List Cone → Bool → LinearOperator)
    (u v : Vec) (w : ℚ) (cones : List Cone) : LinearOperator :=
  block_diag [identity u.length, dprojection v cones true, scalar (gt w 0)]

/-- `M_operator(Q, cones, u, v, w)` from `deriv.cpp`:
`N = |u| + |v| + 1` and `(aslinearoperator(Q) - identity(N)) * dpi + identity(N)`. -/
def M_operator (dprojection : Vec → List Cone → Bool → LinearOperator)
    (Q : Mat) (cones : List Cone) (u v : Vec) (w : ℚ) : LinearOperator :=
  let N := u.length + v.length + 1
  loAdd (loMul (loSub (aslinearoperator Q) (identity N))
      (dpi dprojection u v w cones))
    (identity N)

/-- `dpi_dense(u, v, w, cones)` from `deriv.cpp`: start from the `N × N` zero
matrix, write the `n × n` identity at `(0,0)`, write
`dprojection_dense(v, cones, true)` into the `(N-n-1) × (N-n-1)` block at
`(n,n)`, then set entry `(N-1, N-1)` to `gt(w, 0.0)`.  The written regions are
disjoint; the entry function checks them in reverse write order.  The external
dense cone collaborator `dprojection_dense` is passed as a parameter. -/
def dpi_dense (dprojection_dense : Vec → List Cone → Bool → Mat)
    (u v : Vec) (w : ℚ) (cones : List Cone) : Mat :=
  let n := u.length
  let m := v.length
  let N := n + m + 1
  ofFnMat N N (fun i j =>
    if i = N - 1 ∧ j = N - 1 then gt w 0
    else if n ≤ i ∧ i < n + (N - n - 1) ∧ n ≤ j ∧ j < n + (N - n - 1) then
      entryL (dprojection_dense v cones true) (i - n) (j - n)
    else if i < n ∧ j < n then (if i = j then 1 else 0)
    else 0)

/-- `M_dense(Q, cones, u, v, w)` from `deriv.cpp`:
`N = |u| + |v| + 1` and `(Q - eye) * dpi_dense(u, v, w, cones) + eye` with
`eye` the `N × N` identity; Eigen's dimension assertions make the result
`none` when `Q` is not `N × N`. -/
def M_dense (dprojection_dense : Vec → List Cone → Bool → Mat)
    (Q : Mat) (cones : List Cone) (u v : Vec) (w : ℚ) : Option Mat :=
  let N := u.length + v.length + 1
  let eye := eyeMatL N
  (matSub Q eye).bind (fun S =>
    (matMul S (dpi_dense dprojection_dense u v w cones)).bind (fun P =>
      matAdd P eye))

/-- Read a square list matrix into a `Fin`-indexed matrix (for reasoning about
determinants and adjugates). -/
def toFin (N : ℕ) (A : Mat) : Matrix (Fin N) (Fin N) ℚ :=
  Matrix.of fun i j => (A.getD i.val []).getD j.val 0

/-- The least `i < bound` with `f i ≠ 0`, or `bound` when there is none. -/
def leastNonzeroBelow (f : ℕ → ℚ) : ℕ → ℕ
  | 0 => 0
  | n + 1 =>
    if leastNonzeroBelow f n < n then leastNonzeroBelow f n
    else if f n ≠ 0 then n else n + 1

/-- Coefficients of the characteristic polynomial of `G`, computed by
interpolating `det (t • 1 − G)` at the nodes `t = 0, 1, …, N` through the
(invertible) Vandermonde system — an executable route to the coefficients. -/
def charCoeffs {N : ℕ} (G : Matrix (Fin N) (Fin N) ℚ) (i : ℕ) : ℚ :=
  if h : i < N + 1 then
    (((Matrix.vandermonde (fun j : Fin (N + 1) => (j.val : ℚ))).det⁻¹ •
        (Matrix.vandermonde (fun j : Fin (N + 1) => (j.val : ℚ))).adjugate).mulVec
      (fun j : Fin (N + 1) =>
        (((j.val : ℚ) • (1 : Matrix (Fin N) (Fin N) ℚ)) - G).det)) ⟨i, h⟩
  else 0

/-- The Cayley–Hamilton companion factor of `G`: with `k` the least index of
a nonzero characteristic coefficient `a_k`, this is
`−a_k⁻¹ • Σ_{i>k} a_i G^(i−k−1)`, which satisfies `G^k = G^(k+1) * matS G`. -/
def matS {N : ℕ} (G : Matrix (Fin N) (Fin N) ℚ) : Matrix (Fin N) (Fin N) ℚ :=
  (-(charCoeffs G (leastNonzeroBelow (charCoeffs G) (N + 1)))⁻¹) •
    ∑ i in Finset.Ico (leastNonzeroBelow (charCoeffs G) (N + 1) + 1) (N + 1),
      charCoeffs G i • G ^ (i - (leastNonzeroBelow (charCoeffs G) (N + 1) + 1))

/-- A least-squares solution of `A x = b`: `matS (AᵀA) · Aᵀ · b`.  It solves
the normal equations `AᵀA x = Aᵀ b` for every `A` (singular included), hence
minimizes the squared residual, and coincides with `A⁻¹ b` when `A` is
nonsingular. -/
def lsSolve {N : ℕ} (A : Matrix (Fin N) (Fin N) ℚ) (b : Fin N → ℚ) :
    Fin N → ℚ :=
  (matS (A.transpose * A)).mulVec (A.transpose.mulVec b)

/-- Squared Euclidean norm of the residual `M·x − rhs`, used to state the
least-squares property of the dense solves. -/
def residualSq (M : Mat) (rhs x : Vec) : ℚ :=
  dot (List.zipWith (· - ·) (mulVecL M x) rhs)
    (List.zipWith (· - ·) (mulVecL M x) rhs)

/-- Modelled from the spec: Eigen's `ColPivHouseholderQR::solve`, the external
factorization behind both dense solves (the repository contains only the call
sites).  Per the spec it is a least-squares solve: it returns a vector
minimizing the residual of `M · dz = rhs` for every square `M` (singular
included), which is the exact solution when `M` is nonsingular, and raises no
distinguished error on singular input; Eigen's shape assertions (square `M`,
matching `rhs` length) are modelled as `none`. -/
def colPivHouseholderQrSolve (A : Mat) (b : Vec) : Option Vec :=
  let N := A.length
  if shapeOf A = List.replicate N N ∧ b.length = N then
    some (List.ofFn (lsSolve (toFin N A) (fun i => b.getD i.val 0)))
  else none

/-- `_solve_derivative_dense(M, rhs)` from `deriv.cpp`:
`return M.colPivHouseholderQr().solve(rhs);`. -/
def _solve_derivative_dense (M : Mat) (rhs : Vec) : Option Vec :=
  colPivHouseholderQrSolve M rhs

/-- `_solve_adjoint_derivative_dense(MT, dz)` from `deriv.cpp`:
`return MT.colPivHouseholderQr().solve(dz);` — the same computation on its own
arguments; no transposition happens here. -/
def _solve_adjoint_derivative_dense (MT : Mat) (dz : Vec) : Option Vec :=
  colPivHouseholderQrSolve MT dz

/-! ### Basic lemmas about the list linear algebra -/

theorem dot_eq_sum (a : Vec) : ∀ b : Vec,
    dot a b = ∑ i in Finset.range a.length, a.getD i 0 * b.getD i 0 := by
  induction a with
  | nil => intro b; simp [dot]
  | cons x xs ih =>
    intro b
    cases b with
    | nil => simp [dot]
    | cons y ys =>
      have hsum := Finset.sum_range_succ' (fun i =>
        (x :: xs).getD i 0 * (y :: ys).getD i 0) xs.length
      simp only [List.getD_cons_succ, List.getD_cons_zero] at hsum
      simp only [List.length_cons, hsum, ← ih ys]
      simp [dot]
      ring

theorem dot_eq_sum_of_le (a b : Vec) (K : ℕ) (h : a.length ≤ K) :
    dot a b = ∑ i in Finset.range K, a.getD i 0 * b.getD i 0 := by
  rw [dot_eq_sum]
  apply Finset.sum_subset (Finset.range_subset.2 h)
  intro i _ hi
  have hlen : a.length ≤ i := by
    by_contra hc
    exact hi (Finset.mem_range.2 (lt_of_not_le hc))
  rw [List.getD_eq_default _ _ hlen, zero_mul]

theorem mulVecL_length (A : Mat) (x : Vec) : (mulVecL A x).length = A.length := by
  simp [mulVecL]

theorem mulVecL_getD (A : Mat) (x : Vec) (i : ℕ) (h : i < A.length) :
    (mulVecL A x).getD i 0 = dot (A.getD i []) x := by
  rw [List.getD_eq_getElem _ _ (by simpa [mulVecL] using h),
    List.getD_eq_getElem _ _ h]
  simp [mulVecL]

theorem shapeOf_length (A : Mat) : (shapeOf A).length = A.length := by
  simp [shapeOf]

theorem length_of_shape (A : Mat) (r c : ℕ)
    (h : shapeOf A = List.replicate r c) : A.length = r := by
  have := congrArg List.length h
  simpa [shapeOf] using this

theorem rowLength_of_shape (A : Mat) (r c : ℕ)
    (h : shapeOf A = List.replicate r c) (i : ℕ) (hi : i < A.length) :
    (A.getD i []).length = c := by
  have hr : i < r := (length_of_shape A r c h) ▸ hi
  rw [List.getD_eq_getElem _ _ hi]
  have h1 : (shapeOf A).getD i 0 = (List.replicate r c).getD i 0 := by rw [h]
  rw [List.getD_eq_getElem _ _ (by simpa [shapeOf] using hi),
    List.getD_eq_getElem _ _ (by simpa using hr)] at h1
  simpa [shapeOf] using h1

theorem ofFnMat_length (r c : ℕ) (f : ℕ → ℕ → ℚ) :
    (ofFnMat r c f).length = r := by simp [ofFnMat]

theorem shapeOf_ofFnMat (r c : ℕ) (f : ℕ → ℕ → ℚ) :
    shapeOf (ofFnMat r c f) = List.replicate r c := by
  apply List.eq_replicate_iff.2
  constructor
  · simp [shapeOf, ofFnMat]
  · intro x hx
    simp only [shapeOf, ofFnMat, List.map_map, List.mem_map] at hx
    obtain ⟨i, _, hix⟩ := hx
    simpa using hix.symm

theorem getD_ofFnMat_row (r c : ℕ) (f : ℕ → ℕ → ℚ) (i : ℕ) (hi : i < r) :
    (ofFnMat r c f).getD i [] = (List.range c).map (f i) := by
  rw [List.getD_eq_getElem _ _ (by simpa [ofFnMat] using hi)]
  simp [ofFnMat]

theorem entryL_ofFnMat (r c : ℕ) (f : ℕ → ℕ → ℚ) (i j : ℕ)
    (hi : i < r) (hj : j < c) : entryL (ofFnMat r c f) i j = f i j := by
  rw [entryL, getD_ofFnMat_row r c f i hi,
    List.getD_eq_getElem _ _ (by simpa using hj)]
  simp

theorem matEq_of_rows (A B : Mat) (hlen : A.length = B.length)
    (hrow : ∀ i, i < A.length → A.getD i [] = B.getD i []) : A = B := by
  apply List.ext_getElem hlen
  intro i h1 h2
  have := hrow i h1
  rwa [List.getD_eq_getElem _ _ h1, List.getD_eq_getElem _ _ h2] at this

theorem eq_ofFnMat (A : Mat) (r c : ℕ) (f : ℕ → ℕ → ℚ)
    (hshape : shapeOf A = List.replicate r c)
    (hentry : ∀ i j, i < r → j < c → entryL A i j = f i j) :
    A = ofFnMat r c f := by
  have hA : A.length = r := length_of_shape A r c hshape
  apply matEq_of_rows _ _ (by rw [hA, ofFnMat_length])
  intro i hi
  have hir : i < r := hA ▸ hi
  have hrl : (A.getD i []).length = c := rowLength_of_shape A r c hshape i hi
  rw [getD_ofFnMat_row r c f i hir]
  apply List.ext_getElem
    (by simp only [List.length_map, List.length_range]; exact hrl)
  intro j h1 h2
  have hjc : j < c := hrl ▸ h1
  have hthis := hentry i j hir hjc
  simp only [entryL] at hthis
  rw [List.getD_eq_getElem _ _ h1] at hthis
  simpa using hthis

theorem getD_take (x : Vec) (n j : ℕ) (hj : j < n) :
    (x.take n).getD j 0 = x.getD j 0 := by
  by_cases hx : j < x.length
  · rw [List.getD_eq_getElem _ _ (by simp [List.length_take]; omega),
      List.getD_eq_getElem _ _ hx]
    simp [List.getElem_take]
  · rw [List.getD_eq_default _ _ (by simp [List.length_take]; omega),
      List.getD_eq_default _ _ (by omega)]

theorem getD_drop (x : Vec) (n j : ℕ) :
    (x.drop n).getD j 0 = x.getD (n + j) 0 := by
  by_cases hx : n + j < x.length
  · rw [List.getD_eq_getElem _ _ (by simp [List.length_drop]; omega),
      List.getD_eq_getElem _ _ hx]
    simp [List.getElem_drop]
  · rw [List.getD_eq_default _ _ (by simp [List.length_drop]; omega),
      List.getD_eq_default _ _ (by omega)]

theorem headD_eq_getD (l : Vec) : l.headD 0 = l.getD 0 0 := by
  cases l <;> rfl

theorem take_one_headD (l : Vec) : (l.take 1).headD 0 = l.getD 0 0 := by
  cases l <;> rfl

theorem sum_delta_mul (N i : ℕ) (h : i < N) (g : ℕ → ℚ) :
    ∑ j in Finset.range N, (if i = j then (1 : ℚ) else 0) * g j = g i := by
  rw [Finset.sum_congr rfl (fun j _ => by rw [ite_mul, one_mul, zero_mul])]
  rw [Finset.sum_ite_eq]
  simp [Finset.mem_range, h]

theorem sum_delta_mul' (N i : ℕ) (h : i < N) (c : ℚ) (g : ℕ → ℚ) :
    ∑ j in Finset.range N, (if j = i then c else 0) * g j = c * g i := by
  rw [Finset.sum_congr rfl (fun j _ => by rw [ite_mul, zero_mul])]
  rw [Finset.sum_ite_eq']
  simp [Finset.mem_range, h]

theorem dot_zipWith_sub (a b x : Vec) (h : a.length = b.length) :
    dot (List.zipWith (· - ·) a b) x = dot a x - dot b x := by
  have hlen : (List.zipWith (fun p q => p - q) a b).length = a.length := by
    simp [List.length_zipWith, h]
  rw [dot_eq_sum, dot_eq_sum_of_le a x a.length le_rfl,
    dot_eq_sum_of_le b x a.length (le_of_eq h.symm), hlen,
    ← Finset.sum_sub_distrib]
  apply Finset.sum_congr rfl
  intro j hj
  have hja : j < a.length := Finset.mem_range.1 hj
  rw [List.getD_eq_getElem _ _ (by omega : j < (List.zipWith (fun p q => p - q) a b).length),
    List.getD_eq_getElem _ _ hja, List.getD_eq_getElem _ _ (by omega : j < b.length)]
  simp [sub_mul]

theorem dot_zipWith_add (a b x : Vec) (h : a.length = b.length) :
    dot (List.zipWith (· + ·) a b) x = dot a x + dot b x := by
  have hlen : (List.zipWith (fun p q => p + q) a b).length = a.length := by
    simp [List.length_zipWith, h]
  rw [dot_eq_sum, dot_eq_sum_of_le a x a.length le_rfl,
    dot_eq_sum_of_le b x a.length (le_of_eq h.symm), hlen,
    ← Finset.sum_add_distrib]
  apply Finset.sum_congr rfl
  intro j hj
  have hja : j < a.length := Finset.mem_range.1 hj
  rw [List.getD_eq_getElem _ _ (by omega : j < (List.zipWith (fun p q => p + q) a b).length),
    List.getD_eq_getElem _ _ hja, List.getD_eq_getElem _ _ (by omega : j < b.length)]
  simp [add_mul]

theorem shape_rows_eq_length (A B : Mat) (h : shapeOf A = shapeOf B) :
    A.length = B.length := by
  have := congrArg List.length h
  simpa [shapeOf] using this

theorem shape_row_len (A B : Mat) (h : shapeOf A = shapeOf B) (i : ℕ)
    (hi : i < A.length) : (A.getD i []).length = (B.getD i []).length := by
  have hB : i < B.length := (shape_rows_eq_length A B h) ▸ hi
  have h1 : (shapeOf A).getD i 0 = (shapeOf B).getD i 0 := by rw [h]
  rw [List.getD_eq_getElem _ _ (by simpa [shapeOf] using hi),
    List.getD_eq_getElem _ _ (by simpa [shapeOf] using hB)] at h1
  rw [List.getD_eq_getElem _ _ hi, List.getD_eq_getElem _ _ hB]
  simpa [shapeOf] using h1

theorem mulVecL_zipSub (A B : Mat) (x : Vec) (h : shapeOf A = shapeOf B) :
    mulVecL (List.zipWith (List.zipWith (· - ·)) A B) x
      = List.zipWith (· - ·) (mulVecL A x) (mulVecL B x) := by
  have hAB : A.length = B.length := shape_rows_eq_length A B h
  apply List.ext_getElem
  · simp [mulVecL, List.length_zipWith, hAB]
  · intro i h1 h2
    have hiA : i < A.length := by
      simpa [mulVecL, List.length_zipWith, hAB] using h1
    have hiB : i < B.length := hAB ▸ hiA
    simp only [mulVecL, List.getElem_map, List.getElem_zipWith,
      List.length_zipWith]
    apply dot_zipWith_sub
    have := shape_row_len A B h i hiA
    rwa [List.getD_eq_getElem _ _ hiA, List.getD_eq_getElem _ _ hiB] at this

theorem mulVecL_zipAdd (A B : Mat) (x : Vec) (h : shapeOf A = shapeOf B) :
    mulVecL (List.zipWith (List.zipWith (· + ·)) A B) x
      = List.zipWith (· + ·) (mulVecL A x) (mulVecL B x) := by
  have hAB : A.length = B.length := shape_rows_eq_length A B h
  apply List.ext_getElem
  · simp [mulVecL, List.length_zipWith, hAB]
  · intro i h1 h2
    have hiA : i < A.length := by
      simpa [mulVecL, List.length_zipWith, hAB] using h1
    have hiB : i < B.length := hAB ▸ hiA
    simp only [mulVecL, List.getElem_map, List.getElem_zipWith,
      List.length_zipWith]
    apply dot_zipWith_add
    have := shape_row_len A B h i hiA
    rwa [List.getD_eq_getElem _ _ hiA, List.getD_eq_getElem _ _ hiB] at this

theorem getD_map_range (c j : ℕ) (hj : j < c) (f : ℕ → ℚ) :
    ((List.range c).map f).getD j 0 = f j := by
  rw [List.getD_eq_getElem _ _ (by simpa using hj)]
  simp

theorem mulVecL_eye (N : ℕ) (y : Vec) (h : y.length = N) :
    mulVecL (eyeMatL N) y = y := by
  apply List.ext_getElem
  · simp [mulVecL, eyeMatL, ofFnMat, h]
  · intro i h1 h2
    have hiN : i < N := by simpa [mulVecL, eyeMatL, ofFnMat] using h1
    rw [← List.getD_eq_getElem _ 0 h1, ← List.getD_eq_getElem _ 0 h2,
      mulVecL_getD _ _ _ (by simpa [eyeMatL, ofFnMat] using hiN),
      eyeMatL, getD_ofFnMat_row N N _ i hiN,
      dot_eq_sum_of_le _ _ N (by simp)]
    rw [Finset.sum_congr rfl (fun j hj => by
      rw [getD_map_range N j (Finset.mem_range.1 hj)])]
    exact sum_delta_mul N i hiN _

theorem shapeOf_eyeMatL (N : ℕ) : shapeOf (eyeMatL N) = List.replicate N N :=
  shapeOf_ofFnMat N N _

theorem eyeMatL_length (N : ℕ) : (eyeMatL N).length = N := ofFnMat_length N N _

theorem row_mem_length (A : Mat) (r c : ℕ)
    (h : shapeOf A = List.replicate r c) : ∀ row ∈ A, row.length = c := by
  intro row hrow
  have := (List.eq_replicate_iff.1 h).2
  exact this _ (List.mem_map_of_mem _ hrow)

theorem shapeOf_zipWith (f : ℚ → ℚ → ℚ) (A B : Mat)
    (h : shapeOf A = shapeOf B) :
    shapeOf (List.zipWith (List.zipWith f) A B) = shapeOf A := by
  have hAB : A.length = B.length := shape_rows_eq_length A B h
  apply List.ext_getElem
  · simp [shapeOf, List.length_zipWith, hAB]
  · intro i h1 h2
    have hiA : i < A.length := by
      simpa [shapeOf, List.length_zipWith, hAB] using h1
    have hiB : i < B.length := hAB ▸ hiA
    have hrow := shape_row_len A B h i hiA
    rw [List.getD_eq_getElem _ _ hiA, List.getD_eq_getElem _ _ hiB] at hrow
    simp [shapeOf, List.length_zipWith, hrow]

theorem colsL_ofFnMat (r c : ℕ) (hr : 0 < r) (f : ℕ → ℕ → ℚ) :
    colsL (ofFnMat r c f) = c := by
  cases r with
  | zero => omega
  | succ k => simp [colsL, ofFnMat, List.range_succ_eq_map]

theorem prodRow_shape (A B : Mat) :
    shapeOf (A.map (fun r =>
        (List.range (colsL B)).map (fun j => dot r (colL B j))))
      = List.replicate A.length (colsL B) := by
  apply List.eq_replicate_iff.2
  constructor
  · simp [shapeOf]
  · intro x hx
    simp only [shapeOf, List.map_map, List.mem_map] at hx
    obtain ⟨rr, _, hrx⟩ := hx
    simpa using hrx.symm

theorem colL_getD (B : Mat) (j k : ℕ) (hk : k < B.length) :
    (colL B j).getD k 0 = (B.getD k []).getD j 0 := by
  rw [List.getD_eq_getElem _ _ (by simpa [colL] using hk),
    List.getD_eq_getElem _ _ hk]
  simp [colL]

theorem dot_prodRow (r : Vec) (B : Mat) (x : Vec)
    (hB : shapeOf B = List.replicate B.length (colsL B))
    (hr : r.length = B.length) :
    dot ((List.range (colsL B)).map (fun j => dot r (colL B j))) x
      = dot r (mulVecL B x) := by
  rw [dot_eq_sum_of_le _ x (colsL B) (by simp), dot_eq_sum, hr]
  have hterm : ∀ j ∈ Finset.range (colsL B),
      ((List.range (colsL B)).map (fun j => dot r (colL B j))).getD j 0
          * x.getD j 0
        = ∑ k in Finset.range B.length,
            r.getD k 0 * ((B.getD k []).getD j 0 * x.getD j 0) := by
    intro j hj
    rw [getD_map_range _ j (Finset.mem_range.1 hj),
      dot_eq_sum_of_le r (colL B j) B.length (le_of_eq hr),
      Finset.sum_mul]
    apply Finset.sum_congr rfl
    intro k hk
    rw [colL_getD B j k (Finset.mem_range.1 hk), mul_assoc]
  rw [Finset.sum_congr rfl hterm, Finset.sum_comm]
  apply Finset.sum_congr rfl
  intro k hk
  have hkB : k < B.length := Finset.mem_range.1 hk
  rw [← Finset.mul_sum, mulVecL_getD B x k hkB,
    dot_eq_sum_of_le _ x (colsL B)
      (le_of_eq (row_mem_length B B.length (colsL B) hB _
        (by rw [List.getD_eq_getElem _ _ hkB]; exact List.getElem_mem _)))]

theorem mulVecL_prodRow (A B : Mat) (x : Vec)
    (hA : shapeOf A = List.replicate A.length B.length)
    (hB : shapeOf B = List.replicate B.length (colsL B)) :
    mulVecL (A.map (fun r =>
        (List.range (colsL B)).map (fun j => dot r (colL B j)))) x
      = mulVecL A (mulVecL B x) := by
  simp only [mulVecL, List.map_map]
  apply List.map_congr_left
  intro r hrA
  simp only [Function.comp]
  exact dot_prodRow r B x hB (row_mem_length A A.length B.length hA r hrA)

theorem getD_zipWith_rows (f : ℚ → ℚ → ℚ) (A B : Mat) (i : ℕ)
    (hA : i < A.length) (hB : i < B.length) :
    (List.zipWith (List.zipWith f) A B).getD i []
      = List.zipWith f (A.getD i []) (B.getD i []) := by
  rw [List.getD_eq_getElem _ _ (by
      simp only [List.length_zipWith]
      omega),
    List.getD_eq_getElem _ _ hA, List.getD_eq_getElem _ _ hB]
  simp [List.getElem_zipWith]

theorem vecEq_of_getD (a b : Vec) (hlen : a.length = b.length)
    (h : ∀ i, i < a.length → a.getD i 0 = b.getD i 0) : a = b := by
  apply List.ext_getElem hlen
  intro i h1 h2
  have := h i h1
  rwa [List.getD_eq_getElem _ _ h1, List.getD_eq_getElem _ _ h2] at this

theorem dpi_dense_eq_ofFnMat (dprojDense : Vec → List Cone → Bool → Mat)
    (u v : Vec) (w : ℚ) (cones : List Cone) :
    dpi_dense dprojDense u v w cones
      = ofFnMat (u.length + v.length + 1) (u.length + v.length + 1)
        (fun i j =>
          if i = u.length + v.length ∧ j = u.length + v.length then gt w 0
          else if u.length ≤ i ∧ i < u.length + v.length ∧
              u.length ≤ j ∧ j < u.length + v.length then
            entryL (dprojDense v cones true) (i - u.length) (j - u.length)
          else if i < u.length ∧ j < u.length then (if i = j then 1 else 0)
          else 0) := by
  have e1 : u.length + v.length + 1 - 1 = u.length + v.length := by omega
  have e2 : u.length + (u.length + v.length + 1 - u.length - 1)
      = u.length + v.length := by omega
  simp only [dpi_dense, e1, e2]

theorem mulVecL_ofFnMat_getD (N : ℕ) (f : ℕ → ℕ → ℚ) (x : Vec) (k : ℕ)
    (hk : k < N) :
    (mulVecL (ofFnMat N N f) x).getD k 0
      = ∑ j in Finset.range N, f k j * x.getD j 0 := by
  rw [mulVecL_getD _ _ _ (by rw [ofFnMat_length]; exact hk),
    getD_ofFnMat_row N N f k hk, dot_eq_sum_of_le _ _ N (by simp)]
  apply Finset.sum_congr rfl
  intro j hj
  rw [getD_map_range N j (Finset.mem_range.1 hj)]

theorem sum_ite_middle (n m N : ℕ) (hN : n + m ≤ N) (E : ℕ → ℚ) (ξ : ℕ → ℚ) :
    ∑ j in Finset.range N, (if n ≤ j ∧ j < n + m then E j else 0) * ξ j
      = ∑ t in Finset.range m, E (n + t) * ξ (n + t) := by
  have hsub : Finset.Ico n (n + m) ⊆ Finset.range N := by
    intro j hj
    simp only [Finset.mem_Ico] at hj
    simp only [Finset.mem_range]
    omega
  rw [← Finset.sum_subset hsub (by
    intro j _ hj
    simp only [Finset.mem_Ico] at hj
    rw [if_neg (by omega), zero_mul])]
  rw [Finset.sum_congr rfl (fun j hj => by
    simp only [Finset.mem_Ico] at hj
    rw [if_pos (by omega)])]
  rw [Finset.sum_Ico_eq_sum_range]
  simp only [Nat.add_sub_cancel_left]

/-- Operator-form `dpi` applied to a vector equals the dense `dpi_dense`
matrix applied to the same vector, whenever the two forms of the external
cone collaborator agree on `v`'s block. -/
theorem dpi_matvec_eq_dense
    (dproj : Vec → List Cone → Bool → LinearOperator)
    (dprojDense : Vec → List Cone → Bool → Mat)
    (u v x : Vec) (w : ℚ) (cones : List Cone)
    (hPd : shapeOf (dprojDense v cones true)
      = List.replicate v.length v.length)
    (hPn : (dproj v cones true).n = v.length)
    (hagree : ∀ y : Vec, y.length = v.length →
      (dproj v cones true).matvec y = mulVecL (dprojDense v cones true) y)
    (hx : x.length = u.length + v.length + 1) :
    (dpi dproj u v w cones).matvec x
      = mulVecL (dpi_dense dprojDense u v w cones) x := by
  have hmid : ((x.drop u.length).take v.length).length = v.length := by
    simp only [List.length_take, List.length_drop]
    omega
  have hPdLen : (dprojDense v cones true).length = v.length :=
    length_of_shape _ _ _ hPd
  have hlast : ((x.drop u.length).drop v.length).getD 0 0
      = x.getD (u.length + v.length) 0 := by
    rw [List.drop_drop, getD_drop, Nat.add_zero]
  have hLHS : (dpi dproj u v w cones).matvec x
      = x.take u.length
          ++ mulVecL (dprojDense v cones true) ((x.drop u.length).take v.length)
          ++ [gt w 0 * x.getD (u.length + v.length) 0] := by
    show blockApply [identity u.length, dproj v cones true, scalar (gt w 0)] x
      = _
    simp only [blockApply, identity, scalar, hPn, List.append_nil,
      take_one_headD, hlast, hagree _ hmid, List.append_assoc]
  rw [hLHS, dpi_dense_eq_ofFnMat]
  apply vecEq_of_getD
  · rw [mulVecL_length, ofFnMat_length]
    simp only [List.length_append, List.length_take, List.length_cons,
      List.length_nil, mulVecL_length, hPdLen]
    omega
  · intro k hk
    have hkN : k < u.length + v.length + 1 := by
      simpa only [List.length_append, List.length_take, List.length_cons,
        List.length_nil, mulVecL_length, hPdLen,
        (by omega : min u.length x.length = u.length)] using hk
    rw [mulVecL_ofFnMat_getD _ _ _ k hkN]
    have htake : (x.take u.length).length = u.length := by
      simp only [List.length_take]
      omega
    by_cases hk1 : k < u.length
    · -- identity block row
      rw [List.getD_append _ _ _ _ (by
          simp only [List.length_append, htake, mulVecL_length, hPdLen]
          omega),
        List.getD_append _ _ _ _ (by rw [htake]; omega),
        getD_take _ _ _ hk1]
      rw [Finset.sum_congr rfl (fun j hj => by
        rw [show (if k = u.length + v.length ∧ j = u.length + v.length
              then gt w 0
            else if u.length ≤ k ∧ k < u.length + v.length ∧
                u.length ≤ j ∧ j < u.length + v.length then
              entryL (dprojDense v cones true) (k - u.length) (j - u.length)
            else if k < u.length ∧ j < u.length then (if k = j then 1 else 0)
            else 0)
            = (if k = j then 1 else 0) from by
          rw [if_neg (by omega), if_neg (by omega)]
          by_cases hj1 : j < u.length
          · rw [if_pos ⟨hk1, hj1⟩]
          · rw [if_neg (by omega), if_neg (by omega)]])]
      rw [sum_delta_mul _ k hkN]
    · by_cases hk2 : k < u.length + v.length
      · -- cone-projection block row
        rw [Finset.sum_congr rfl (fun j hj => by
          rw [show (if k = u.length + v.length ∧ j = u.length + v.length
                then gt w 0
              else if u.length ≤ k ∧ k < u.length + v.length ∧
                  u.length ≤ j ∧ j < u.length + v.length then
                entryL (dprojDense v cones true) (k - u.length) (j - u.length)
              else if k < u.length ∧ j < u.length then
                (if k = j then 1 else 0)
              else 0)
              = (if u.length ≤ j ∧ j < u.length + v.length then
                  entryL (dprojDense v cones true) (k - u.length)
                    (j - u.length)
                else 0) from by
            by_cases hj1 : u.length ≤ j ∧ j < u.length + v.length
            · rw [if_neg (by omega), if_pos (by omega), if_pos hj1]
            · rw [if_neg (by omega), if_neg (by omega), if_neg (by omega),
                if_neg hj1]])]
        rw [sum_ite_middle _ _ _ (by omega)]
        rw [List.getD_append _ _ _ _ (by
            simp only [List.length_append, htake, mulVecL_length, hPdLen]
            omega),
          List.getD_append_right _ _ _ _ (by rw [htake]; omega),
          htake, mulVecL_getD _ _ _ (by rw [hPdLen]; omega),
          dot_eq_sum_of_le _ _ v.length
            (le_of_eq (rowLength_of_shape _ _ _ hPd (k - u.length)
              (by rw [hPdLen]; omega)))]
        apply Finset.sum_congr rfl
        intro t ht
        have htm : t < v.length := Finset.mem_range.1 ht
        rw [getD_take _ _ _ htm, getD_drop]
        simp only [entryL, Nat.add_sub_cancel_left]
      · -- scalar block row
        have hkEq : k = u.length + v.length := by omega
        subst hkEq
        rw [Finset.sum_congr rfl (fun j hj => by
          rw [show (if u.length + v.length = u.length + v.length ∧
                  j = u.length + v.length then gt w 0
              else if u.length ≤ u.length + v.length ∧
                  u.length + v.length < u.length + v.length ∧
                  u.length ≤ j ∧ j < u.length + v.length then
                entryL (dprojDense v cones true)
                  (u.length + v.length - u.length) (j - u.length)
              else if u.length + v.length < u.length ∧ j < u.length then
                (if u.length + v.length = j then 1 else 0)
              else 0)
              = (if j = u.length + v.length then gt w 0 else 0) from by
            by_cases hj1 : j = u.length + v.length
            · rw [if_pos ⟨rfl, hj1⟩, if_pos hj1]
            · rw [if_neg (by omega), if_neg (by omega), if_neg (by omega),
                if_neg hj1]])]
        rw [sum_delta_mul' _ _ (by omega : u.length + v.length
          < u.length + v.length + 1)]
        rw [List.getD_append_right _ _ _ _ (by
            simp only [List.length_append, htake, mulVecL_length, hPdLen]
            omega)]
        simp only [List.length_append, htake, mulVecL_length, hPdLen,
          Nat.sub_self, List.getD_cons_zero]

theorem M_dense_eq_some (dprojDense : Vec → List Cone → Bool → Mat)
    (Q : Mat) (cones : List Cone) (u v : Vec) (w : ℚ)
    (hQ : shapeOf Q = List.replicate (u.length + v.length + 1)
      (u.length + v.length + 1)) :
    M_dense dprojDense Q cones u v w
      = some (List.zipWith (List.zipWith (· + ·))
          ((List.zipWith (List.zipWith (· - ·)) Q
              (eyeMatL (u.length + v.length + 1))).map (fun r =>
            (List.range (colsL (dpi_dense dprojDense u v w cones))).map
              (fun j => dot r (colL (dpi_dense dprojDense u v w cones) j))))
          (eyeMatL (u.length + v.length + 1))) := by
  have hone : 0 < u.length + v.length + 1 := by omega
  have hD := dpi_dense_eq_ofFnMat dprojDense u v w cones
  have hDshape : shapeOf (dpi_dense dprojDense u v w cones)
      = List.replicate (u.length + v.length + 1) (u.length + v.length + 1) := by
    rw [hD]; exact shapeOf_ofFnMat _ _ _
  have hDlen : (dpi_dense dprojDense u v w cones).length
      = u.length + v.length + 1 := length_of_shape _ _ _ hDshape
  have hDcols : colsL (dpi_dense dprojDense u v w cones)
      = u.length + v.length + 1 := by rw [hD]; exact colsL_ofFnMat _ _ hone _
  have hQE : shapeOf Q = shapeOf (eyeMatL (u.length + v.length + 1)) := by
    rw [hQ, shapeOf_eyeMatL]
  have hSQshape : shapeOf (List.zipWith (List.zipWith (· - ·)) Q
      (eyeMatL (u.length + v.length + 1)))
        = List.replicate (u.length + v.length + 1) (u.length + v.length + 1) := by
    rw [shapeOf_zipWith _ _ _ hQE, hQ]
  have hSQlen := length_of_shape _ _ _ hSQshape
  have h1 : matSub Q (eyeMatL (u.length + v.length + 1))
      = some (List.zipWith (List.zipWith (· - ·)) Q
          (eyeMatL (u.length + v.length + 1))) := by
    unfold matSub; rw [if_pos hQE]
  have h2 : matMul (List.zipWith (List.zipWith (· - ·)) Q
        (eyeMatL (u.length + v.length + 1)))
      (dpi_dense dprojDense u v w cones)
      = some ((List.zipWith (List.zipWith (· - ·)) Q
          (eyeMatL (u.length + v.length + 1))).map (fun r =>
            (List.range (colsL (dpi_dense dprojDense u v w cones))).map
              (fun j => dot r (colL (dpi_dense dprojDense u v w cones) j)))) := by
    unfold matMul
    rw [if_pos ⟨by rw [hSQshape, hSQlen, hDlen], by rw [hDshape, hDlen, hDcols]⟩]
  have h3 : matAdd ((List.zipWith (List.zipWith (· - ·)) Q
        (eyeMatL (u.length + v.length + 1))).map (fun r =>
          (List.range (colsL (dpi_dense dprojDense u v w cones))).map
            (fun j => dot r (colL (dpi_dense dprojDense u v w cones) j))))
      (eyeMatL (u.length + v.length + 1))
      = some (List.zipWith (List.zipWith (· + ·))
          ((List.zipWith (List.zipWith (· - ·)) Q
              (eyeMatL (u.length + v.length + 1))).map (fun r =>
            (List.range (colsL (dpi_dense dprojDense u v w cones))).map
              (fun j => dot r (colL (dpi_dense dprojDense u v w cones) j))))
          (eyeMatL (u.length + v.length + 1))) := by
    unfold matAdd
    rw [if_pos (by rw [prodRow_shape, hSQlen, hDcols, shapeOf_eyeMatL])]
  show (matSub Q (eyeMatL (u.length + v.length + 1))).bind (fun S =>
      (matMul S (dpi_dense dprojDense u v w cones)).bind (fun P =>
        matAdd P (eyeMatL (u.length + v.length + 1)))) = _
  rw [h1]
  simp only [Option.some_bind]
  rw [h2]
  simp only [Option.some_bind]
  rw [h3]

/-- C2: for inputs of matching dimensions, applying the operator form
`M_operator` to a vector `x` of length `N = |u| + |v| + 1` gives exactly the
vector obtained by multiplying the dense matrix `M_dense` by `x` (the dense
form exists, and the two pipelines agree), provided the operator and dense
forms of the external cone-projection-derivative collaborator agree on `v`. -/
theorem M_operator_agrees_with_M_dense
    (dproj : Vec → List Cone → Bool → LinearOperator)
    (dprojDense : Vec → List Cone → Bool → Mat)
    (Q : Mat) (cones : List Cone) (u v x : Vec) (w : ℚ)
    (hQ : shapeOf Q = List.replicate (u.length + v.length + 1)
      (u.length + v.length + 1))
    (hPd : shapeOf (dprojDense v cones true)
      = List.replicate v.length v.length)
    (hPn : (dproj v cones true).n = v.length)
    (hagree : ∀ y : Vec, y.length = v.length →
      (dproj v cones true).matvec y = mulVecL (dprojDense v cones true) y)
    (hx : x.length = u.length + v.length + 1) :
    M_dense dprojDense Q cones u v w ≠ none ∧
    (M_operator dproj Q cones u v w).matvec x
      = mulVecL ((M_dense dprojDense Q cones u v w).getD []) x := by
  have hone : 0 < u.length + v.length + 1 := by omega
  have hD := dpi_dense_eq_ofFnMat dprojDense u v w cones
  have hDshape : shapeOf (dpi_dense dprojDense u v w cones)
      = List.replicate (u.length + v.length + 1) (u.length + v.length + 1) := by
    rw [hD]; exact shapeOf_ofFnMat _ _ _
  have hDlen : (dpi_dense dprojDense u v w cones).length
      = u.length + v.length + 1 := length_of_shape _ _ _ hDshape
  have hDcols : colsL (dpi_dense dprojDense u v w cones)
      = u.length + v.length + 1 := by rw [hD]; exact colsL_ofFnMat _ _ hone _
  have hQE : shapeOf Q = shapeOf (eyeMatL (u.length + v.length + 1)) := by
    rw [hQ, shapeOf_eyeMatL]
  have hSQshape : shapeOf (List.zipWith (List.zipWith (· - ·)) Q
      (eyeMatL (u.length + v.length + 1)))
        = List.replicate (u.length + v.length + 1) (u.length + v.length + 1) := by
    rw [shapeOf_zipWith _ _ _ hQE, hQ]
  have hSQlen := length_of_shape _ _ _ hSQshape
  have hMd := M_dense_eq_some dprojDense Q cones u v w hQ
  constructor
  · rw [hMd]
    exact Option.some_ne_none _
  · rw [hMd, Option.getD_some]
    have hylen : (mulVecL (dpi_dense dprojDense u v w cones) x).length
        = u.length + v.length + 1 := by rw [mulVecL_length, hDlen]
    rw [mulVecL_zipAdd _ _ x
        (by rw [prodRow_shape, hSQlen, hDcols, shapeOf_eyeMatL]),
      mulVecL_prodRow _ _ x (by rw [hSQshape, hSQlen, hDlen])
        (by rw [hDshape, hDlen, hDcols]),
      mulVecL_eye _ x hx,
      mulVecL_zipSub _ _ _ hQE,
      mulVecL_eye _ _ hylen]
    show List.zipWith (· + ·)
        (List.zipWith (· - ·)
          (mulVecL Q ((dpi dproj u v w cones).matvec x))
          ((dpi dproj u v w cones).matvec x)) x = _
    rw [dpi_matvec_eq_dense dproj dprojDense u v x w cones hPd hPn hagree hx]

theorem ofFnMat_congr (r c : ℕ) (f g : ℕ → ℕ → ℚ)
    (h : ∀ i j, i < r → j < c → f i j = g i j) :
    ofFnMat r c f = ofFnMat r c g := by
  unfold ofFnMat
  apply List.map_congr_left
  intro i hi
  apply List.map_congr_left
  intro j hj
  exact h i j (List.mem_range.1 hi) (List.mem_range.1 hj)

theorem dpi_dense_shape (dprojDense : Vec → List Cone → Bool → Mat)
    (u v : Vec) (w : ℚ) (cones : List Cone) :
    shapeOf (dpi_dense dprojDense u v w cones)
      = List.replicate (u.length + v.length + 1) (u.length + v.length + 1) := by
  rw [dpi_dense_eq_ofFnMat]
  exact shapeOf_ofFnMat _ _ _

theorem dpi_dense_cols (dprojDense : Vec → List Cone → Bool → Mat)
    (u v : Vec) (w : ℚ) (cones : List Cone) :
    colsL (dpi_dense dprojDense u v w cones) = u.length + v.length + 1 := by
  rw [dpi_dense_eq_ofFnMat]
  exact colsL_ofFnMat _ _ (by omega) _

theorem zipWith_add_zero_left (c : ℕ) (r : Vec) (h : r.length = c) :
    List.zipWith (· + ·) ((List.range c).map (fun _ => (0 : ℚ))) r = r := by
  apply List.ext_getElem (by simp [h])
  intro i h1 h2
  simp [List.getElem_zipWith]

theorem ofFn_getD (N : ℕ) (b : Vec) (h : b.length = N) :
    List.ofFn (fun i : Fin N => b.getD i.val 0) = b := by
  apply List.ext_getElem (by simp [h])
  intro i h1 h2
  rw [List.getElem_ofFn]
  simp only
  rw [List.getD_eq_getElem _ _ h2]

theorem entryL_eyeMatL (N i j : ℕ) (hi : i < N) (hj : j < N) :
    entryL (eyeMatL N) i j = if i = j then 1 else 0 := by
  unfold eyeMatL
  exact entryL_ofFnMat _ _ _ _ _ hi hj

theorem toFin_eyeMatL (N : ℕ) : toFin N (eyeMatL N) = 1 := by
  ext i j
  show entryL (eyeMatL N) i.val j.val = _
  rw [entryL_eyeMatL _ _ _ i.isLt j.isLt, Matrix.one_apply]
  by_cases h : i = j
  · rw [if_pos h, if_pos (congrArg Fin.val h)]
  · rw [if_neg h, if_neg (fun hv => h (Fin.ext hv))]

theorem toFin_eyeMatL' (N : ℕ) : toFin (eyeMatL N).length (eyeMatL N) = 1 := by
  ext i j
  have hlen : (eyeMatL N).length = N := eyeMatL_length N
  have hiN : i.val < N := by
    have h := i.isLt
    omega
  have hjN : j.val < N := by
    have h := j.isLt
    omega
  show entryL (eyeMatL N) i.val j.val = _
  rw [entryL_eyeMatL _ _ _ hiN hjN, Matrix.one_apply]
  by_cases h : i = j
  · rw [if_pos h, if_pos (congrArg Fin.val h)]
  · rw [if_neg h, if_neg (fun hv => h (Fin.ext hv))]

theorem mulVecL_ofFn_toFin (M : Mat)
    (hM : shapeOf M = List.replicate M.length M.length)
    (y : Fin M.length → ℚ) :
    mulVecL M (List.ofFn y) = List.ofFn ((toFin M.length M).mulVec y) := by
  apply List.ext_getElem (by simp [mulVecL_length])
  intro i h1 h2
  have hiM : i < M.length := by simpa [mulVecL_length] using h1
  rw [← List.getD_eq_getElem _ 0 h1, mulVecL_getD _ _ _ hiM,
    List.getElem_ofFn,
    dot_eq_sum_of_le _ _ M.length
      (le_of_eq (rowLength_of_shape _ _ _ hM i hiM))]
  simp only [Matrix.mulVec, Matrix.dotProduct]
  rw [← Fin.sum_univ_eq_sum_range
    (fun j => (M.getD i []).getD j 0 * (List.ofFn y).getD j 0) M.length]
  apply Finset.sum_congr rfl
  intro j _
  congr 1
  rw [List.getD_eq_getElem _ _ (by simp [j.isLt] :
    (j : ℕ) < (List.ofFn y).length)]
  rw [List.getElem_ofFn]

theorem leastNonzeroBelow_le (f : ℕ → ℚ) : ∀ n, leastNonzeroBelow f n ≤ n := by
  intro n
  induction n with
  | zero => simp [leastNonzeroBelow]
  | succ m ih =>
    simp only [leastNonzeroBelow]
    split_ifs with h1 h2 <;> omega

theorem leastNonzeroBelow_zero_before (f : ℕ → ℚ) :
    ∀ n i, i < leastNonzeroBelow f n → f i = 0 := by
  intro n
  induction n with
  | zero => intro i hi; simp [leastNonzeroBelow] at hi
  | succ m ih =>
    intro i hi
    have hle := leastNonzeroBelow_le f m
    simp only [leastNonzeroBelow] at hi
    split_ifs at hi with h1 h2
    · exact ih i hi
    · exact ih i (by omega)
    · by_cases him : i < m
      · exact ih i (by omega)
      · have : i = m := by omega
        rw [this]
        exact not_not.1 h2

theorem leastNonzeroBelow_spec (f : ℕ → ℚ) :
    ∀ n, leastNonzeroBelow f n < n → f (leastNonzeroBelow f n) ≠ 0 := by
  intro n
  induction n with
  | zero => intro h; omega
  | succ m ih =>
    intro h
    simp only [leastNonzeroBelow] at h ⊢
    split_ifs at h ⊢ with h1 h2
    · exact ih h1
    · exact h2
    · omega

theorem leastNonzeroBelow_le_of_nonzero (f : ℕ → ℚ) :
    ∀ n j, j < n → f j ≠ 0 → leastNonzeroBelow f n ≤ j := by
  intro n
  induction n with
  | zero => intro j hj _; omega
  | succ m ih =>
    intro j hj hfj
    have hle := leastNonzeroBelow_le f m
    simp only [leastNonzeroBelow]
    split_ifs with h1 h2
    · by_cases hjm : j < m
      · exact ih j hjm hfj
      · omega
    · by_cases hjm : j < m
      · have := ih j hjm hfj
        omega
      · omega
    · exfalso
      by_cases hjm : j < m
      · have := ih j hjm hfj
        omega
      · have hjem : j = m := by omega
        rw [hjem] at hfj
        exact hfj (not_not.1 h2)

theorem charpoly_eval_det {N : ℕ} (G : Matrix (Fin N) (Fin N) ℚ) (s : ℚ) :
    G.charpoly.eval s = ((s • (1 : Matrix (Fin N) (Fin N) ℚ)) - G).det := by
  rw [Matrix.charpoly]
  rw [show Polynomial.eval s (Matrix.charmatrix G).det
      = ((Polynomial.evalRingHom s).mapMatrix (Matrix.charmatrix G)).det from by
    rw [← RingHom.map_det]
    simp [Polynomial.coe_evalRingHom]]
  rw [RingHom.mapMatrix_apply]
  congr 1
  ext i j
  by_cases hij : i = j
  · subst hij
    simp [Matrix.map_apply, Matrix.charmatrix_apply_eq, Matrix.smul_apply,
      Matrix.one_apply_eq, Matrix.sub_apply]
  · simp [Matrix.map_apply, Matrix.charmatrix_apply_ne _ _ _ hij,
      Matrix.smul_apply, Matrix.one_apply_ne hij, Matrix.sub_apply]

theorem charpoly_natDegree {N : ℕ} (G : Matrix (Fin N) (Fin N) ℚ) :
    G.charpoly.natDegree = N := by
  rw [Matrix.charpoly_natDegree_eq_dim]
  exact Fintype.card_fin N

theorem vandermonde_nodes_det_ne_zero (N : ℕ) :
    (Matrix.vandermonde (fun j : Fin (N + 1) => (j.val : ℚ))).det ≠ 0 := by
  rw [Matrix.det_vandermonde]
  apply Finset.prod_ne_zero_iff.2
  intro i _
  apply Finset.prod_ne_zero_iff.2
  intro j hj
  have hij : i < j := Finset.mem_Ioi.1 hj
  have : (i.val : ℚ) < (j.val : ℚ) := by
    exact_mod_cast (Fin.lt_iff_val_lt_val.1 hij)
  exact sub_ne_zero.2 (ne_of_gt this)

theorem charCoeffs_eq {N : ℕ} (G : Matrix (Fin N) (Fin N) ℚ) (i : ℕ) :
    charCoeffs G i = G.charpoly.coeff i := by
  by_cases h : i < N + 1
  · rw [charCoeffs, dif_pos h]
    have hVa : (Matrix.vandermonde (fun j : Fin (N + 1) => (j.val : ℚ))).mulVec
        (fun j : Fin (N + 1) => G.charpoly.coeff j.val)
        = (fun j : Fin (N + 1) =>
            (((j.val : ℚ) • (1 : Matrix (Fin N) (Fin N) ℚ)) - G).det) := by
      funext j
      rw [← charpoly_eval_det G (j.val : ℚ)]
      rw [Polynomial.eval_eq_sum_range, charpoly_natDegree]
      rw [← Fin.sum_univ_eq_sum_range
        (fun t => G.charpoly.coeff t * ((j.val : ℚ)) ^ t) (N + 1)]
      simp only [Matrix.mulVec, Matrix.dotProduct, Matrix.vandermonde,
        Matrix.of_apply]
      apply Finset.sum_congr rfl
      intro t _
      rw [mul_comm]
    rw [← hVa, Matrix.mulVec_mulVec, Matrix.smul_mul, Matrix.adjugate_mul,
      smul_smul, inv_mul_cancel₀ (vandermonde_nodes_det_ne_zero N), one_smul,
      Matrix.one_mulVec]
  · rw [charCoeffs, dif_neg h]
    symm
    apply Polynomial.coeff_eq_zero_of_natDegree_lt
    rw [charpoly_natDegree]
    omega

theorem charCoeffs_top {N : ℕ} (G : Matrix (Fin N) (Fin N) ℚ) :
    charCoeffs G N = 1 := by
  rw [charCoeffs_eq]
  have := (Matrix.charpoly_monic G).coeff_natDegree
  rwa [charpoly_natDegree] at this

theorem charCoeffs_sum_pow {N : ℕ} (G : Matrix (Fin N) (Fin N) ℚ) :
    ∑ i in Finset.range (N + 1), charCoeffs G i • G ^ i = 0 := by
  have hCH := Matrix.aeval_self_charpoly G
  rw [Polynomial.aeval_eq_sum_range, charpoly_natDegree] at hCH
  rw [← hCH]
  apply Finset.sum_congr rfl
  intro i _
  rw [charCoeffs_eq]

theorem pow_matS {N : ℕ} (G : Matrix (Fin N) (Fin N) ℚ) :
    G ^ (leastNonzeroBelow (charCoeffs G) (N + 1))
      = G ^ (leastNonzeroBelow (charCoeffs G) (N + 1) + 1) * matS G := by
  have hkle : leastNonzeroBelow (charCoeffs G) (N + 1) ≤ N :=
    leastNonzeroBelow_le_of_nonzero _ _ N (by omega)
      (by rw [charCoeffs_top]; norm_num)
  have hak : charCoeffs G (leastNonzeroBelow (charCoeffs G) (N + 1)) ≠ 0 :=
    leastNonzeroBelow_spec _ _ (by omega)
  have hsplit := charCoeffs_sum_pow G
  rw [Finset.range_eq_Ico,
    ← Finset.sum_Ico_consecutive (fun i => charCoeffs G i • G ^ i)
      (Nat.zero_le (leastNonzeroBelow (charCoeffs G) (N + 1)))
      (by omega : leastNonzeroBelow (charCoeffs G) (N + 1) ≤ N + 1)] at hsplit
  rw [Finset.sum_eq_zero (fun i hi => by
    rw [leastNonzeroBelow_zero_before (charCoeffs G) (N + 1) i
      (Finset.mem_Ico.1 hi).2, zero_smul]), zero_add] at hsplit
  rw [Finset.sum_eq_sum_Ico_succ_bot (by omega :
    leastNonzeroBelow (charCoeffs G) (N + 1) < N + 1)] at hsplit
  have htail : ∑ i in Finset.Ico
      (leastNonzeroBelow (charCoeffs G) (N + 1) + 1) (N + 1),
        charCoeffs G i • G ^ i
      = G ^ (leastNonzeroBelow (charCoeffs G) (N + 1) + 1) *
        ∑ i in Finset.Ico
          (leastNonzeroBelow (charCoeffs G) (N + 1) + 1) (N + 1),
            charCoeffs G i •
              G ^ (i - (leastNonzeroBelow (charCoeffs G) (N + 1) + 1)) := by
    rw [Finset.mul_sum]
    apply Finset.sum_congr rfl
    intro i hi
    have hik : leastNonzeroBelow (charCoeffs G) (N + 1) + 1 ≤ i :=
      (Finset.mem_Ico.1 hi).1
    rw [Matrix.mul_smul, ← pow_add]
    congr 2
    omega
  rw [htail] at hsplit
  have hmain : charCoeffs G (leastNonzeroBelow (charCoeffs G) (N + 1)) •
      G ^ (leastNonzeroBelow (charCoeffs G) (N + 1))
      = -(G ^ (leastNonzeroBelow (charCoeffs G) (N + 1) + 1) *
        ∑ i in Finset.Ico
          (leastNonzeroBelow (charCoeffs G) (N + 1) + 1) (N + 1),
            charCoeffs G i •
              G ^ (i - (leastNonzeroBelow (charCoeffs G) (N + 1) + 1))) := by
    exact eq_neg_of_add_eq_zero_left hsplit
  rw [matS, Matrix.mul_smul]
  rw [show G ^ (leastNonzeroBelow (charCoeffs G) (N + 1) + 1) *
        ∑ i in Finset.Ico
          (leastNonzeroBelow (charCoeffs G) (N + 1) + 1) (N + 1),
            charCoeffs G i •
              G ^ (i - (leastNonzeroBelow (charCoeffs G) (N + 1) + 1))
      = -(charCoeffs G (leastNonzeroBelow (charCoeffs G) (N + 1)) •
          G ^ (leastNonzeroBelow (charCoeffs G) (N + 1))) from by
    rw [hmain, neg_neg]]
  rw [smul_neg, neg_smul, neg_neg, smul_smul,
    inv_mul_cancel₀ hak, one_smul]

theorem symm_pow_mulVec_eq_zero {N : ℕ} (G : Matrix (Fin N) (Fin N) ℚ)
    (hG : G.transpose = G) :
    ∀ (k : ℕ) (v : Fin N → ℚ), (G ^ k).mulVec v = 0 → G.mulVec v = 0 := by
  intro k
  induction k with
  | zero =>
    intro v hv
    rw [pow_zero, Matrix.one_mulVec] at hv
    rw [hv, Matrix.mulVec_zero]
  | succ m ih =>
    intro v hv
    rw [pow_succ, ← Matrix.mulVec_mulVec] at hv
    have h2 : G.mulVec (G.mulVec v) = 0 := ih (G.mulVec v) hv
    have hdot : Matrix.dotProduct (G.mulVec v) (G.mulVec v) = 0 := by
      rw [Matrix.dotProduct_mulVec, ← Matrix.mulVec_transpose, hG, h2,
        Matrix.zero_dotProduct]
    exact Matrix.dotProduct_self_eq_zero.1 hdot

theorem eq_zero_of_forall_mulVec {N : ℕ} (M : Matrix (Fin N) (Fin N) ℚ)
    (h : ∀ v, M.mulVec v = 0) : M = 0 := by
  ext i j
  have h1 := congrFun (h (Pi.single j 1)) i
  rw [Matrix.mulVec_single] at h1
  simpa using h1

theorem transpose_matS {N : ℕ} (G : Matrix (Fin N) (Fin N) ℚ)
    (hG : G.transpose = G) : (matS G).transpose = matS G := by
  rw [matS, Matrix.transpose_smul, Matrix.transpose_sum]
  congr 1
  apply Finset.sum_congr rfl
  intro i _
  rw [Matrix.transpose_smul, Matrix.transpose_pow, hG]

theorem matS_mul_comm {N : ℕ} (G : Matrix (Fin N) (Fin N) ℚ) :
    matS G * G = G * matS G := by
  rw [matS, Matrix.smul_mul, Matrix.mul_smul]
  congr 1
  rw [Finset.sum_mul, Finset.mul_sum]
  apply Finset.sum_congr rfl
  intro i _
  rw [Matrix.smul_mul, Matrix.mul_smul]
  congr 1
  rw [← pow_succ, ← pow_succ']

theorem G_mul_one_sub {N : ℕ} (A : Matrix (Fin N) (Fin N) ℚ) :
    (A.transpose * A) *
      (1 - (A.transpose * A) * matS (A.transpose * A)) = 0 := by
  have hGsymm : (A.transpose * A).transpose = A.transpose * A := by
    rw [Matrix.transpose_mul, Matrix.transpose_transpose]
  have hPk : (A.transpose * A) ^
        (leastNonzeroBelow (charCoeffs (A.transpose * A)) (N + 1)) *
      (1 - (A.transpose * A) * matS (A.transpose * A)) = 0 := by
    rw [Matrix.mul_sub, Matrix.mul_one, ← Matrix.mul_assoc, ← pow_succ,
      ← pow_matS, sub_self]
  apply eq_zero_of_forall_mulVec
  intro v
  rw [← Matrix.mulVec_mulVec]
  apply symm_pow_mulVec_eq_zero _ hGsymm
    (leastNonzeroBelow (charCoeffs (A.transpose * A)) (N + 1))
  rw [Matrix.mulVec_mulVec, hPk, Matrix.zero_mulVec]

theorem eq_zero_of_transpose_mul_self {N : ℕ}
    (T : Matrix (Fin N) (Fin N) ℚ) (h : T.transpose * T = 0) : T = 0 := by
  ext i j
  have hd : Matrix.dotProduct (fun r => T r j) (fun r => T r j) = 0 := by
    have h1 := congrFun (congrFun h j) j
    rw [Matrix.mul_apply] at h1
    simp only [Matrix.transpose_apply, Matrix.zero_apply] at h1
    simpa [Matrix.dotProduct] using h1
  have h0 := congrFun (Matrix.dotProduct_self_eq_zero.1 hd) i
  simpa using h0

theorem A_mul_one_sub {N : ℕ} (A : Matrix (Fin N) (Fin N) ℚ) :
    A * (1 - (A.transpose * A) * matS (A.transpose * A)) = 0 := by
  apply eq_zero_of_transpose_mul_self
  rw [Matrix.transpose_mul, Matrix.mul_assoc,
    ← Matrix.mul_assoc A.transpose A
      (1 - (A.transpose * A) * matS (A.transpose * A)),
    G_mul_one_sub A, Matrix.mul_zero]

theorem GS_mul_transpose {N : ℕ} (A : Matrix (Fin N) (Fin N) ℚ) :
    (A.transpose * A) * matS (A.transpose * A) * A.transpose = A.transpose := by
  have hGsymm : (A.transpose * A).transpose = A.transpose * A := by
    rw [Matrix.transpose_mul, Matrix.transpose_transpose]
  have hA : A = A * ((A.transpose * A) * matS (A.transpose * A)) := by
    have := A_mul_one_sub A
    rw [Matrix.mul_sub, Matrix.mul_one, sub_eq_zero] at this
    exact this
  have h1 := congrArg Matrix.transpose hA
  rw [Matrix.transpose_mul, Matrix.transpose_mul, transpose_matS _ hGsymm,
    hGsymm, matS_mul_comm] at h1
  exact h1.symm

theorem lsSolve_normal {N : ℕ} (A : Matrix (Fin N) (Fin N) ℚ)
    (b : Fin N → ℚ) :
    A.transpose.mulVec (A.mulVec (lsSolve A b)) = A.transpose.mulVec b := by
  rw [lsSolve, Matrix.mulVec_mulVec, Matrix.mulVec_mulVec,
    Matrix.mulVec_mulVec, GS_mul_transpose A]

theorem dotSelf_nonneg {N : ℕ} (v : Fin N → ℚ) :
    0 ≤ Matrix.dotProduct v v :=
  Finset.sum_nonneg fun _ _ => mul_self_nonneg _

theorem lsSolve_residual_le {N : ℕ} (A : Matrix (Fin N) (Fin N) ℚ)
    (b y : Fin N → ℚ) :
    Matrix.dotProduct (A.mulVec (lsSolve A b) - b)
        (A.mulVec (lsSolve A b) - b)
      ≤ Matrix.dotProduct (A.mulVec y - b) (A.mulVec y - b) := by
  have hAe : A.transpose.mulVec (A.mulVec (lsSolve A b) - b) = 0 := by
    rw [Matrix.mulVec_sub, lsSolve_normal, sub_self]
  have hcross : Matrix.dotProduct (A.mulVec (lsSolve A b) - b)
      (A.mulVec (y - lsSolve A b)) = 0 := by
    rw [Matrix.dotProduct_mulVec, ← Matrix.mulVec_transpose, hAe,
      Matrix.zero_dotProduct]
  have hd : A.mulVec y - b
      = (A.mulVec (lsSolve A b) - b) + A.mulVec (y - lsSolve A b) := by
    rw [Matrix.mulVec_sub]
    abel
  rw [hd, Matrix.dotProduct_add, Matrix.add_dotProduct,
    Matrix.add_dotProduct, Matrix.dotProduct_comm (A.mulVec (y - lsSolve A b))
      (A.mulVec (lsSolve A b) - b), hcross]
  have hnn := dotSelf_nonneg (A.mulVec (y - lsSolve A b))
  linarith

theorem lsSolve_exact {N : ℕ} (A : Matrix (Fin N) (Fin N) ℚ)
    (b : Fin N → ℚ) (hdet : A.det ≠ 0) : A.mulVec (lsSolve A b) = b := by
  have he : A.transpose.mulVec (A.mulVec (lsSolve A b) - b) = 0 := by
    rw [Matrix.mulVec_sub, lsSolve_normal, sub_self]
  have h2 : A.det • (A.mulVec (lsSolve A b) - b) = 0 := by
    have h1 := congrArg (fun v => A.transpose.adjugate.mulVec v) he
    simp only [Matrix.mulVec_mulVec, Matrix.mulVec_zero] at h1
    rw [Matrix.adjugate_mul, Matrix.det_transpose,
      Matrix.smul_mulVec_assoc, Matrix.one_mulVec] at h1
    exact h1
  rcases smul_eq_zero.1 h2 with h | h
  · exact absurd h hdet
  · exact sub_eq_zero.1 h

theorem zipWith_sub_ofFn (N : ℕ) (f : Fin N → ℚ) (b : Vec) (hb : b.length = N) :
    List.zipWith (· - ·) (List.ofFn f) b
      = List.ofFn (f - fun i : Fin N => b.getD i.val 0) := by
  apply List.ext_getElem (by simp [hb])
  intro i h1 h2
  have hiN : i < N := by simpa using h2
  simp only [List.getElem_zipWith, List.getElem_ofFn, Pi.sub_apply]
  rw [List.getD_eq_getElem _ _ (by omega : i < b.length)]

theorem dot_ofFn (N : ℕ) (f g : Fin N → ℚ) :
    dot (List.ofFn f) (List.ofFn g) = Matrix.dotProduct f g := by
  rw [dot_eq_sum, List.length_ofFn, Matrix.dotProduct,
    ← Fin.sum_univ_eq_sum_range
      (fun t => (List.ofFn f).getD t 0 * (List.ofFn g).getD t 0) N]
  apply Finset.sum_congr rfl
  intro i _
  rw [List.getD_eq_getElem _ _ (by simp [i.isLt]),
    List.getD_eq_getElem _ _ (by simp [i.isLt])]
  simp [List.getElem_ofFn]

theorem residualSq_ofFn (M : Mat)
    (hM : shapeOf M = List.replicate M.length M.length)
    (rhs : Vec) (hr : rhs.length = M.length) (x : Fin M.length → ℚ) :
    residualSq M rhs (List.ofFn x)
      = Matrix.dotProduct
          ((toFin M.length M).mulVec x - fun i => rhs.getD i.val 0)
          ((toFin M.length M).mulVec x - fun i => rhs.getD i.val 0) := by
  rw [residualSq, mulVecL_ofFn_toFin M hM,
    zipWith_sub_ofFn M.length _ rhs hr, dot_ofFn]

/-! ### Claim theorems -/

/-- C1: `M_operator(Q, cones, u, v, w)` computes `N = |u| + |v| + 1` and
returns the composed operator
`(wrap(Q) − identity(N)) · dpi(u, v, w, cones) + identity(N)`, and
`M_dense(Q, cones, u, v, w)` computes the same formula with dense
(checked) arithmetic `(Q − I_N) · dpi_dense(u, v, w, cones) + I_N`,
for every `Q`, `cones`, `u`, `v`, `w`. -/
theorem M_operator_and_M_dense_formula
    (dprojection : Vec → List Cone → Bool → LinearOperator)
    (dprojection_dense : Vec → List Cone → Bool → Mat)
    (Q : Mat) (cones : List Cone) (u v : Vec) (w : ℚ) :
    M_operator dprojection Q cones u v w
      = loAdd (loMul (loSub (aslinearoperator Q)
            (identity (u.length + v.length + 1)))
          (dpi dprojection u v w cones))
        (identity (u.length + v.length + 1)) ∧
    M_dense dprojection_dense Q cones u v w
      = (matSub Q (eyeMatL (u.length + v.length + 1))).bind (fun S =>
          (matMul S (dpi_dense dprojection_dense u v w cones)).bind (fun P =>
            matAdd P (eyeMatL (u.length + v.length + 1)))) :=
  ⟨rfl, rfl⟩

/-- C5: `dpi(u, v, w, cones)` is the block-diagonal composition of exactly
the identity on `ℝ^|u|`, the external operator `dprojection(v, cones, dual)`
with the dual flag fixed to `true`, and the `1 × 1` scalar operator
`gt(w, 0.0)`, in this order. -/
theorem dpi_block_diag_formula
    (dprojection : Vec → List Cone → Bool → LinearOperator)
    (u v : Vec) (w : ℚ) (cones : List Cone) :
    dpi dprojection u v w cones
      = block_diag [identity u.length, dprojection v cones true,
          scalar (gt w 0)] :=
  rfl

/-- C6: `gt(x, t)` returns `1.0` when `x ≥ t` and `0.0` when `x < t`; in
particular at the boundary `x = t` it returns `1.0` (non-strict `≥`). -/
theorem gt_step_function (x t : ℚ) :
    (t ≤ x → gt x t = 1) ∧ (x < t → gt x t = 0) ∧ gt t t = 1 := by
  unfold gt
  exact ⟨fun h => if_pos h, fun h => if_neg (not_le.2 h), if_pos le_rfl⟩

/-- Witness for C6 at concrete inputs `(5, 3)`, `(2, 3)` and the boundary
`(0, 0)`. -/
theorem gt_step_function_witness :
    gt 5 3 = 1 ∧ gt 2 3 = 0 ∧ gt 0 0 = 1 :=
  ⟨(gt_step_function 5 3).1 (by norm_num),
    (gt_step_function 2 3).2.1 (by norm_num),
    (gt_step_function 0 0).2.2⟩

/-- C9: `dpi` and `dpi_dense` depend on `u` only through its length —
replacing `u` by any `u'` of the same length leaves both outputs
unchanged. -/
theorem dpi_depends_only_on_u_length
    (dprojection : Vec → List Cone → Bool → LinearOperator)
    (dprojection_dense : Vec → List Cone → Bool → Mat)
    (u u' v : Vec) (w : ℚ) (cones : List Cone)
    (h : u.length = u'.length) :
    dpi dprojection u v w cones = dpi dprojection u' v w cones ∧
    dpi_dense dprojection_dense u v w cones
      = dpi_dense dprojection_dense u' v w cones := by
  constructor
  · unfold dpi
    rw [h]
  · unfold dpi_dense
    rw [h]

/-- Witness for C9: `u = [1, 2]` and `u' = [3, 4]` give identical outputs. -/
theorem dpi_depends_only_on_u_length_witness :
    dpi (fun _ _ _ => identity 1) [1, 2] [5] 0 []
      = dpi (fun _ _ _ => identity 1) [3, 4] [5] 0 [] ∧
    dpi_dense (fun _ _ _ => [[7]]) [1, 2] [5] 0 []
      = dpi_dense (fun _ _ _ => [[7]]) [3, 4] [5] 0 [] :=
  dpi_depends_only_on_u_length (fun _ _ _ => identity 1)
    (fun _ _ _ => [[7]]) [1, 2] [3, 4] [5] 0 [] rfl

/-- C10: the adjoint dense solve is extensionally identical to the forward
dense solve — it performs no transposition itself, so the caller must pass
an already-transposed matrix. -/
theorem solve_adjoint_extensionally_eq_solve (A : Mat) (b : Vec) :
    _solve_adjoint_derivative_dense A b = _solve_derivative_dense A b :=
  rfl

/-- C4: for valid inputs (the dense cone collaborator returning an
`m × m` block), `dpi_dense` is exactly block-diagonal: the top-left `n × n`
block is the identity, the middle `m × m` block is
`dprojection_dense(v, cones, true)`, the bottom-right entry is `gt(w, 0.0)`,
and every entry outside the three diagonal blocks is zero (first conjunct:
the full entry description; remaining conjuncts: the three blocks read
back). -/
theorem dpi_dense_block_structure
    (dprojection_dense : Vec → List Cone → Bool → Mat)
    (u v : Vec) (w : ℚ) (cones : List Cone)
    (hPd : shapeOf (dprojection_dense v cones true)
      = List.replicate v.length v.length) :
    dpi_dense dprojection_dense u v w cones
      = ofFnMat (u.length + v.length + 1) (u.length + v.length + 1)
        (fun i j =>
          if i < u.length ∧ j < u.length then (if i = j then 1 else 0)
          else if u.length ≤ i ∧ i < u.length + v.length ∧
              u.length ≤ j ∧ j < u.length + v.length then
            entryL (dprojection_dense v cones true) (i - u.length)
              (j - u.length)
          else if i = u.length + v.length ∧ j = u.length + v.length then
            gt w 0
          else 0) ∧
    blockL (dpi_dense dprojection_dense u v w cones) 0 0 u.length u.length
      = eyeMatL u.length ∧
    blockL (dpi_dense dprojection_dense u v w cones) u.length u.length
        v.length v.length
      = dprojection_dense v cones true ∧
    entryL (dpi_dense dprojection_dense u v w cones)
        (u.length + v.length) (u.length + v.length)
      = gt w 0 := by
  have hmain : dpi_dense dprojection_dense u v w cones
      = ofFnMat (u.length + v.length + 1) (u.length + v.length + 1)
        (fun i j =>
          if i < u.length ∧ j < u.length then (if i = j then 1 else 0)
          else if u.length ≤ i ∧ i < u.length + v.length ∧
              u.length ≤ j ∧ j < u.length + v.length then
            entryL (dprojection_dense v cones true) (i - u.length)
              (j - u.length)
          else if i = u.length + v.length ∧ j = u.length + v.length then
            gt w 0
          else 0) := by
    rw [dpi_dense_eq_ofFnMat]
    congr 1
    funext i j
    by_cases h1 : i < u.length ∧ j < u.length
    · rw [if_neg (by omega), if_neg (by omega), if_pos h1, if_pos h1]
    · by_cases h2 : u.length ≤ i ∧ i < u.length + v.length ∧
          u.length ≤ j ∧ j < u.length + v.length
      · rw [if_neg (by omega), if_pos h2, if_neg h1, if_pos h2]
      · by_cases h3 : i = u.length + v.length ∧ j = u.length + v.length
        · rw [if_pos h3, if_neg h1, if_neg h2, if_pos h3]
        · rw [if_neg h3, if_neg h2, if_neg h1, if_neg h2, if_neg h3,
            if_neg h1]
  refine ⟨hmain, ?_, ?_, ?_⟩
  · rw [hmain]
    unfold blockL eyeMatL
    apply ofFnMat_congr
    intro i j hi hj
    rw [entryL_ofFnMat _ _ _ _ _ (by omega) (by omega)]
    simp only [Nat.zero_add]
    rw [if_pos ⟨hi, hj⟩]
  · rw [hmain]
    unfold blockL
    refine (eq_ofFnMat (dprojection_dense v cones true) v.length v.length _
      hPd ?_).symm
    intro i j hi hj
    rw [entryL_ofFnMat _ _ _ _ _ (by omega) (by omega)]
    rw [if_neg (by omega), if_pos (by omega)]
    simp only [Nat.add_sub_cancel_left]
  · rw [hmain]
    rw [entryL_ofFnMat _ _ _ _ _ (by omega) (by omega)]
    rw [if_neg (by omega), if_neg (by omega), if_pos ⟨rfl, rfl⟩]

/-- Witness for C4 at `u = [4]`, `v = [7]`, `w = -1`, with the dense cone
collaborator returning `[[5]]`: the three diagonal blocks read back as
claimed. -/
theorem dpi_dense_block_structure_witness :
    blockL (dpi_dense (fun _ _ _ => [[5]]) [4] [7] (-1) []) 0 0 1 1
      = eyeMatL 1 ∧
    blockL (dpi_dense (fun _ _ _ => [[5]]) [4] [7] (-1) []) 1 1 1 1
      = [[5]] ∧
    entryL (dpi_dense (fun _ _ _ => [[5]]) [4] [7] (-1) []) 2 2
      = gt (-1) 0 := by
  have h := dpi_dense_block_structure (fun _ _ _ => [[5]]) [4] [7] (-1) []
    (by decide)
  exact ⟨h.2.1, h.2.2.1, h.2.2.2⟩

/-- C8: `dpi_dense` and (when `Q` is `N × N`) `M_dense` produce `N × N`
matrices with `N = |u| + |v| + 1` derived from `u` and `v`; calling
`M_dense` with a `Q` whose shape differs from `N × N` fails fast
(the checked dense arithmetic yields `none`) instead of truncating or
padding. -/
theorem dimension_invariant
    (dprojection_dense : Vec → List Cone → Bool → Mat)
    (Q : Mat) (cones : List Cone) (u v : Vec) (w : ℚ) :
    shapeOf (dpi_dense dprojection_dense u v w cones)
      = List.replicate (u.length + v.length + 1) (u.length + v.length + 1) ∧
    (shapeOf Q = List.replicate (u.length + v.length + 1)
        (u.length + v.length + 1) →
      Option.map shapeOf (M_dense dprojection_dense Q cones u v w)
        = some (List.replicate (u.length + v.length + 1)
            (u.length + v.length + 1))) ∧
    (shapeOf Q ≠ List.replicate (u.length + v.length + 1)
        (u.length + v.length + 1) →
      M_dense dprojection_dense Q cones u v w = none) := by
  refine ⟨dpi_dense_shape _ _ _ _ _, fun hQ => ?_, fun hQn => ?_⟩
  · rw [M_dense_eq_some dprojection_dense Q cones u v w hQ,
      Option.map_some']
    congr 1
    have hSQshape : shapeOf (List.zipWith (List.zipWith (· - ·)) Q
        (eyeMatL (u.length + v.length + 1)))
          = List.replicate (u.length + v.length + 1)
            (u.length + v.length + 1) := by
      rw [shapeOf_zipWith _ _ _ (by rw [hQ, shapeOf_eyeMatL]), hQ]
    rw [shapeOf_zipWith _ _ _
        (by rw [prodRow_shape, length_of_shape _ _ _ hSQshape,
          dpi_dense_cols, shapeOf_eyeMatL]),
      prodRow_shape, length_of_shape _ _ _ hSQshape, dpi_dense_cols]
  · show (matSub Q (eyeMatL (u.length + v.length + 1))).bind _ = none
    have hnone : matSub Q (eyeMatL (u.length + v.length + 1)) = none := by
      unfold matSub
      rw [if_neg (by rw [shapeOf_eyeMatL]; exact hQn)]
    rw [hnone]
    rfl

/-- Witness for C8 with `u = [2]`, `v = [3]` (so `N = 3`): `dpi_dense` is
`3 × 3`, a `3 × 3` `Q` yields a `3 × 3` dense `M`, and a `1 × 1` `Q` makes
`M_dense` fail with `none`. -/
theorem dimension_invariant_witness :
    shapeOf (dpi_dense (fun _ _ _ => [[5]]) [2] [3] 1 [])
      = List.replicate 3 3 ∧
    Option.map shapeOf
        (M_dense (fun _ _ _ => [[5]]) [[1, 0, 0], [0, 1, 0], [0, 0, 1]]
          [] [2] [3] 1)
      = some (List.replicate 3 3) ∧
    M_dense (fun _ _ _ => [[5]]) [[1]] [] [2] [3] 1 = none := by
  refine ⟨(dimension_invariant (fun _ _ _ => [[5]])
      [[1, 0, 0], [0, 1, 0], [0, 0, 1]] [] [2] [3] 1).1, ?_, ?_⟩
  · exact (dimension_invariant (fun _ _ _ => [[5]])
      [[1, 0, 0], [0, 1, 0], [0, 0, 1]] [] [2] [3] 1).2.1 (by decide)
  · exact (dimension_invariant (fun _ _ _ => [[5]])
      [[1]] [] [2] [3] 1).2.2 (by decide)

/-- Witness for C2: `u = [2]`, `v = []` (empty cone block), `Q = [[1,2],[3,4]]`,
`x = [5,7]`; the operator and dense pipelines produce the same vector. -/
theorem M_operator_agrees_with_M_dense_witness :
    M_dense (fun _ _ _ => []) [[1, 2], [3, 4]] [] [2] [] 1 ≠ none ∧
    (M_operator (fun _ _ _ => identity 0) [[1, 2], [3, 4]] [] [2] [] 1).matvec
        [5, 7]
      = mulVecL
          ((M_dense (fun _ _ _ => []) [[1, 2], [3, 4]] [] [2] [] 1).getD [])
          [5, 7] :=
  M_operator_agrees_with_M_dense (fun _ _ _ => identity 0) (fun _ _ _ => [])
    [[1, 2], [3, 4]] [] [2] [] [5, 7] 1 (by decide) (by decide) rfl
    (fun y hy => by
      have h0 : y = [] := List.length_eq_zero.1 hy
      subst h0
      rfl)
    (by decide)

/-- C7: if `Q` is the `N × N` identity then `M_dense` collapses to the
identity matrix for every `(u, v, w, cones)` of matching dimensions, and the
dense solve against that `M` returns the right-hand side unchanged. -/
theorem identity_Q_collapses
    (dprojection_dense : Vec → List Cone → Bool → Mat)
    (Q : Mat) (cones : List Cone) (u v : Vec) (w : ℚ) (rhs : Vec)
    (hQ : Q = eyeMatL (u.length + v.length + 1))
    (hrhs : rhs.length = u.length + v.length + 1) :
    M_dense dprojection_dense Q cones u v w
      = some (eyeMatL (u.length + v.length + 1)) ∧
    _solve_derivative_dense (eyeMatL (u.length + v.length + 1)) rhs
      = some rhs := by
  constructor
  · subst hQ
    rw [M_dense_eq_some dprojection_dense _ cones u v w
      (by rw [shapeOf_eyeMatL])]
    congr 1
    have hcD : colsL (dpi_dense dprojection_dense u v w cones)
        = u.length + v.length + 1 := dpi_dense_cols _ _ _ _ _
    have hzero : List.zipWith (List.zipWith (· - ·))
        (eyeMatL (u.length + v.length + 1))
        (eyeMatL (u.length + v.length + 1))
        = ofFnMat (u.length + v.length + 1) (u.length + v.length + 1)
          (fun _ _ => 0) := by
      rw [List.zipWith_same]
      unfold eyeMatL ofFnMat
      rw [List.map_map]
      apply List.map_congr_left
      intro i _
      simp only [Function.comp]
      rw [List.zipWith_same, List.map_map]
      apply List.map_congr_left
      intro j _
      simp only [Function.comp, sub_self]
    have hraw : (ofFnMat (u.length + v.length + 1) (u.length + v.length + 1)
          (fun _ _ => (0 : ℚ))).map
        (fun r => (List.range
            (colsL (dpi_dense dprojection_dense u v w cones))).map
          (fun j => dot r (colL (dpi_dense dprojection_dense u v w cones) j)))
        = ofFnMat (u.length + v.length + 1)
            (colsL (dpi_dense dprojection_dense u v w cones))
            (fun _ _ => 0) := by
      unfold ofFnMat
      rw [List.map_map]
      apply List.map_congr_left
      intro i _
      simp only [Function.comp]
      apply List.map_congr_left
      intro j _
      rw [dot_eq_sum]
      apply Finset.sum_eq_zero
      intro t ht
      have htN : t < u.length + v.length + 1 := by
        simpa using Finset.mem_range.1 ht
      rw [getD_map_range _ _ htN, zero_mul]
    have hsum : List.zipWith (List.zipWith (· + ·))
        (ofFnMat (u.length + v.length + 1) (u.length + v.length + 1)
          (fun _ _ => (0 : ℚ)))
        (eyeMatL (u.length + v.length + 1))
        = eyeMatL (u.length + v.length + 1) := by
      apply matEq_of_rows
      · simp [List.length_zipWith, ofFnMat_length, eyeMatL_length]
      · intro i hi
        have hiN : i < u.length + v.length + 1 := by
          simpa [List.length_zipWith, ofFnMat_length, eyeMatL_length] using hi
        rw [getD_zipWith_rows _ _ _ i (by rw [ofFnMat_length]; exact hiN)
            (by rw [eyeMatL_length]; exact hiN),
          getD_ofFnMat_row _ _ _ i hiN]
        apply zipWith_add_zero_left
        exact rowLength_of_shape (eyeMatL (u.length + v.length + 1))
          (u.length + v.length + 1) (u.length + v.length + 1)
          (shapeOf_eyeMatL _) i (by rw [eyeMatL_length]; exact hiN)
    rw [hzero, hraw, hcD, hsum]
  · have hc : shapeOf (eyeMatL (u.length + v.length + 1))
        = List.replicate (eyeMatL (u.length + v.length + 1)).length
            (eyeMatL (u.length + v.length + 1)).length ∧
        rhs.length = (eyeMatL (u.length + v.length + 1)).length := by
      rw [eyeMatL_length, shapeOf_eyeMatL]
      exact ⟨rfl, hrhs⟩
    simp only [_solve_derivative_dense, colPivHouseholderQrSolve]
    rw [if_pos hc, toFin_eyeMatL']
    have hex := lsSolve_exact
      (1 : Matrix (Fin (eyeMatL (u.length + v.length + 1)).length)
        (Fin (eyeMatL (u.length + v.length + 1)).length) ℚ)
      (fun i => rhs.getD i.val 0) (by rw [Matrix.det_one]; norm_num)
    rw [Matrix.one_mulVec] at hex
    rw [hex]
    exact congrArg some (ofFn_getD _ rhs
      (by rw [eyeMatL_length]; exact hrhs))

/-- Witness for C7, the spec's scenario: `n = 1`, `m = 0`, `u = [2]`,
`w = 3`, `Q` the `2 × 2` identity, `rhs = [5, -1]`: `M_dense` is the
`2 × 2` identity and the solve returns `[5, -1]` exactly. -/
theorem identity_Q_collapses_witness :
    M_dense (fun _ _ _ => []) [[1, 0], [0, 1]] [] [2] [] 3
      = some (eyeMatL 2) ∧
    _solve_derivative_dense (eyeMatL 2) [5, -1] = some [5, -1] :=
  identity_Q_collapses (fun _ _ _ => []) [[1, 0], [0, 1]] [] [2] [] 3 [5, -1]
    (by decide) (by decide)

/-- C3: on a square `M` with matching right-hand side, the dense solve never
raises an error (it returns `some` even for singular `M`), its result is a
least-squares solution of `M · dz = rhs` — its squared residual is no larger
than that of any candidate vector `y` of matching length — it is the exact
solution whenever `M` is nonsingular, and the adjoint entry point obeys the
identical contract, being the same computation on its own arguments. -/
theorem solve_derivative_dense_contract (M : Mat) (rhs y : Vec)
    (hM : shapeOf M = List.replicate M.length M.length)
    (hr : rhs.length = M.length)
    (hy : y.length = M.length) :
    _solve_derivative_dense M rhs ≠ none ∧
    residualSq M rhs ((_solve_derivative_dense M rhs).getD [])
      ≤ residualSq M rhs y ∧
    ((toFin M.length M).det ≠ 0 →
      Option.map (mulVecL M) (_solve_derivative_dense M rhs) = some rhs) ∧
    _solve_adjoint_derivative_dense M rhs = _solve_derivative_dense M rhs := by
  have hsolve : _solve_derivative_dense M rhs
      = some (List.ofFn (lsSolve (toFin M.length M)
          (fun i => rhs.getD i.val 0))) := by
    simp only [_solve_derivative_dense, colPivHouseholderQrSolve]
    rw [if_pos ⟨hM, hr⟩]
  refine ⟨by rw [hsolve]; exact Option.some_ne_none _, ?_, fun hdet => ?_, rfl⟩
  · rw [hsolve, Option.getD_some]
    have hyF : y = List.ofFn (fun i : Fin M.length => y.getD i.val 0) :=
      (ofFn_getD M.length y hy).symm
    rw [hyF, residualSq_ofFn M hM rhs hr, residualSq_ofFn M hM rhs hr]
    exact lsSolve_residual_le (toFin M.length M) _ _
  · rw [hsolve, Option.map_some']
    congr 1
    rw [mulVecL_ofFn_toFin M hM, lsSolve_exact _ _ hdet]
    exact ofFn_getD M.length rhs hr

/-- Witness for C3 at `M = [[2]]`, `rhs = [6]`, candidate `y = [0]`: the
solve succeeds, its residual is no larger than that of `y`, its result
multiplied by `M` gives back `rhs`, and the adjoint solve coincides. -/
theorem solve_derivative_dense_contract_witness :
    _solve_derivative_dense [[2]] [6] ≠ none ∧
    residualSq [[2]] [6] ((_solve_derivative_dense [[2]] [6]).getD [])
      ≤ residualSq [[2]] [6] [0] ∧
    Option.map (mulVecL [[2]]) (_solve_derivative_dense [[2]] [6])
      = some [6] ∧
    _solve_adjoint_derivative_dense [[2]] [6]
      = _solve_derivative_dense [[2]] [6] := by
  have hdet : (toFin (List.length ([[2]] : Mat)) [[2]]).det ≠ 0 := by
    show (toFin 1 [[2]]).det ≠ 0
    rw [Matrix.det_fin_one]
    decide
  have h := solve_derivative_dense_contract [[2]] [6] [0] (by decide)
    (by decide) (by decide)
  exact ⟨h.1, h.2.1, h.2.2.1 hdet, h.2.2.2⟩

end Diffcp
